import Mathlib

/-!
# Verification of the SYCL-BLAS level-1 / level-3 interface layer

This file gives a shallow embedding of the routines of
`blas1_interface_sycl.hpp` and `blas3_interface_sycl.hpp` and proves the
testable properties stated in the design document.

Device buffers are modelled as total functions `ℤ → α` (element values at
buffer positions); views address a buffer through `offset + i * stride`.
The expression trees of the library are evaluated eagerly: a node of the
tree becomes the function `ℕ → ℚ` giving its value at an index, exactly as
the per-node evaluation contracts of the design document describe.

The operation-tree execution engine, the block-parallel reduction engine
and the GEMM kernel bodies live in `blas1_trees.hpp` / `blas3_trees.hpp`
/ `executor_sycl.hpp`, which are not part of the sources under review;
those parts are modelled from the specification and each such definition
is marked `Modelled from the spec:` in its doc comment.  Everything else
is translated directly from the interface sources.
-/

namespace blas

/-! ## Buffers and strided writes -/

/-- Point update of a buffer: position `q` takes value `v`. -/
def upd {α : Type} (f : ℤ → α) (q : ℤ) (v : α) : ℤ → α :=
  fun p => if p = q then v else f p

/-- Modelled from the spec: the evaluation engine launches one execution
unit per index of the domain `dom`; unit `i` writes value `vl i` at buffer
position `ps i` (spec section 4.3).  Positions outside the written set keep
their previous contents.  On the (undefined-behaviour) inputs where two
indices write the same position the model resolves the race in favour of
the earliest index. -/
def maskedWrite {β α : Type} (dom : List β) (ps : β → ℤ) (vl : β → α)
    (buf : ℤ → α) : ℤ → α :=
  fun p =>
    match dom.find? (fun i => decide (ps i = p)) with
    | some i => vl i
    | none => buf p

lemma find?_unique {β : Type} {l : List β} {pr : β → Bool} {x : β}
    (hx : x ∈ l) (hpx : pr x = true) (huniq : ∀ y ∈ l, pr y = true → y = x) :
    l.find? pr = some x := by
  induction l with
  | nil => cases hx
  | cons a t ih =>
    by_cases ha : pr a = true
    · have hax : a = x := huniq a (List.mem_cons_self a t) ha
      subst hax
      exact List.find?_cons_of_pos _ ha
    · have hxt : x ∈ t := by
        rcases List.mem_cons.mp hx with h | h
        · exact absurd (h ▸ hpx) ha
        · exact h
      rw [List.find?_cons_of_neg _ ha]
      exact ih hxt (fun y hy hpy => huniq y (List.mem_cons_of_mem a hy) hpy)

/-- Reading a written position: if `j` is in the domain and no other index
addresses `j`'s position, the written value is read back. -/
lemma maskedWrite_pos {β α : Type} {dom : List β} {ps : β → ℤ} {vl : β → α}
    {buf : ℤ → α} {j : β} (hj : j ∈ dom)
    (huniq : ∀ i ∈ dom, ps i = ps j → i = j) :
    maskedWrite dom ps vl buf (ps j) = vl j := by
  unfold maskedWrite
  rw [find?_unique hj (by simp) (fun y hy hpy => huniq y hy (by simpa using hpy))]

/-- Reading an unwritten position returns the previous contents. -/
lemma maskedWrite_nmem {β α : Type} {dom : List β} {ps : β → ℤ} {vl : β → α}
    {buf : ℤ → α} {p : ℤ} (h : ∀ i ∈ dom, ps i ≠ p) :
    maskedWrite dom ps vl buf p = buf p := by
  unfold maskedWrite
  rw [List.find?_eq_none.mpr (fun i hi => by simpa using h i hi)]

/-- A write whose values do not depend on the destination buffer is
idempotent. -/
lemma maskedWrite_idem {β α : Type} (dom : List β) (ps : β → ℤ) (vl : β → α)
    (buf : ℤ → α) :
    maskedWrite dom ps vl (maskedWrite dom ps vl buf) = maskedWrite dom ps vl buf := by
  funext p
  unfold maskedWrite
  cases dom.find? (fun i => decide (ps i = p)) <;> rfl

/-! ## Views -/

/-- Strided logical window over a device buffer (`vector_view` of the view
layer); `offset + i * stride` addresses element `i` for `i < size`. -/
structure vector_view where
  offset : ℤ
  stride : ℤ
  size : ℕ

/-- Buffer position of element `i` of the view. -/
def vector_view.pos (v : vector_view) (i : ℕ) : ℤ := v.offset + i * v.stride

/-- Positions of a strided view with nonzero stride are pairwise distinct. -/
lemma vector_view.pos_inj {v : vector_view} (hs : v.stride ≠ 0) {i j : ℕ}
    (h : v.pos i = v.pos j) : i = j := by
  unfold vector_view.pos at h
  have h' : (i : ℤ) * v.stride = (j : ℤ) * v.stride := by linarith
  have : (i : ℤ) = j := mul_right_cancel₀ hs h'
  exact_mod_cast this

/-! ## Assignment-tree execution (modelled from the spec) -/

/-- Modelled from the spec: execution of an `Assign(dest, src)` tree
(spec section 4.2): for every `i` in `[0, dest.size)`,
`dest[i] = src.eval(i)`; all other positions are untouched.  The body of
`Assign` lives in `blas1_trees.hpp`, which is not among the sources. -/
def assignExec (dest : vector_view) (src : ℕ → ℚ) (buf : ℤ → ℚ) : ℤ → ℚ :=
  maskedWrite (List.range dest.size) dest.pos src buf

/-- Modelled from the spec: execution of a `DobleAssign(destA, destB, srcA,
srcB)` tree (spec section 4.2): for every `i`, both source expressions are
evaluated on the state as it existed before either destination is written,
then `destA[i]` and `destB[i]` receive the two values.  `destA` addresses
buffer `bufA` and `destB` addresses buffer `bufB`; the source evaluation
functions are closed over the pre-state by the caller, which models the
mandated read-all-before-write-all ordering. -/
def dualAssignExec (destA destB : vector_view) (srcA srcB : ℕ → ℚ)
    (bufA bufB : ℤ → ℚ) : (ℤ → ℚ) × (ℤ → ℚ) :=
  (maskedWrite (List.range destA.size) destA.pos srcA bufA,
   maskedWrite (List.range destB.size) destB.pos srcB bufB)

/-! ## Block-parallel reduction engine (modelled from the spec)

The reduction engine (`blas1_trees.hpp`) partitions the index range into
blocks, combines each block to one partial result, and recursively reduces
the partials until one value remains (spec section 4.4). -/

/-- Combine a block of values with the functor `c`; the empty block yields
the neutral placeholder `z` (never reached on nonempty input). -/
def combList {α : Type} (c : α → α → α) (z : α) : List α → α
  | [] => z
  | x :: t => t.foldl c x

/-- Partition a list into consecutive blocks of `L` elements (the last
block may be shorter); `fuel` bounds the recursion depth. -/
def chunkGo {α : Type} (L : ℕ) : ℕ → List α → List (List α)
  | _, [] => []
  | 0, xs => [xs]
  | fuel + 1, xs => xs.take L :: chunkGo L fuel (xs.drop L)

/-- One round of the reduction produces one partial result per block;
rounds repeat until a single value remains (`fuel` bounds the rounds). -/
def reduceRounds {α : Type} (c : α → α → α) (z : α) (L : ℕ) :
    ℕ → List α → α
  | _, [] => z
  | _, [a] => a
  | 0, xs => combList c z xs
  | fuel + 1, xs =>
      reduceRounds c z L fuel ((chunkGo L xs.length xs).map (combList c z))

/-- Modelled from the spec: the block-parallel tree reduction over the
value list `xs` with combine functor `c`, group size `L` (spec
section 4.4). -/
def blockReduce {α : Type} (c : α → α → α) (z : α) (L : ℕ) (xs : List α) : α :=
  reduceRounds c z L xs.length xs

lemma chunkGo_join {α : Type} (L : ℕ) :
    ∀ (fuel : ℕ) (xs : List α), (chunkGo L fuel xs).flatten = xs := by
  intro fuel
  induction fuel with
  | zero =>
    intro xs
    cases xs with
    | nil => rfl
    | cons a t => simp [chunkGo]
  | succ n ih =>
    intro xs
    cases xs with
    | nil => rfl
    | cons a t =>
      simp only [chunkGo, List.flatten_cons, ih]
      exact List.take_append_drop L (a :: t)

lemma chunkGo_ne_nil {α : Type} {L : ℕ} (hL : 1 ≤ L) :
    ∀ (fuel : ℕ) (xs : List α), ∀ l ∈ chunkGo L fuel xs, l ≠ [] := by
  intro fuel
  induction fuel with
  | zero =>
    intro xs l hl
    cases xs with
    | nil => cases hl
    | cons a t =>
      simp only [chunkGo, List.mem_singleton] at hl
      subst hl
      exact List.cons_ne_nil a t
  | succ n ih =>
    intro xs l hl
    cases xs with
    | nil => cases hl
    | cons a t =>
      simp only [chunkGo, List.mem_cons] at hl
      rcases hl with h | h
      · subst h
        intro hcon
        have hlen := congrArg List.length hcon
        simp [List.length_take] at hlen
        omega
      · exact ih (List.drop L (a :: t)) l h

lemma foldl_assoc_pull {α : Type} {c : α → α → α}
    (hassoc : ∀ a b d, c (c a b) d = c a (c b d)) :
    ∀ (u : List α) (y A : α), c A (u.foldl c y) = u.foldl c (c A y) := by
  intro u
  induction u with
  | nil => intro y A; rfl
  | cons v u' ih =>
    intro y A
    simp only [List.foldl_cons]
    rw [ih (c y v) A, hassoc]

lemma foldl_chunks {α : Type} {c : α → α → α} {z : α}
    (hassoc : ∀ a b d, c (c a b) d = c a (c b d)) :
    ∀ (chunks : List (List α)) (A : α), (∀ l ∈ chunks, l ≠ []) →
      (chunks.map (combList c z)).foldl c A = chunks.flatten.foldl c A := by
  intro chunks
  induction chunks with
  | nil => intro A _; rfl
  | cons l rest ih =>
    intro A hne
    cases l with
    | nil => exact absurd rfl (hne [] (List.mem_cons_self _ _))
    | cons y u =>
      simp only [List.map_cons, List.foldl_cons, List.flatten_cons]
      rw [ih (c A (combList c z (y :: u)))
            (fun l hl => hne l (List.mem_cons_of_mem _ hl))]
      show (List.flatten rest).foldl c (c A (u.foldl c y)) = _
      rw [foldl_assoc_pull hassoc u y A, List.foldl_append]
      rfl

lemma combList_chunks {α : Type} {c : α → α → α} {z : α}
    (hassoc : ∀ a b d, c (c a b) d = c a (c b d))
    (chunks : List (List α)) (hne : ∀ l ∈ chunks, l ≠ []) :
    combList c z (chunks.map (combList c z)) = combList c z chunks.flatten := by
  cases chunks with
  | nil => rfl
  | cons l rest =>
    cases l with
    | nil => exact absurd rfl (hne [] (List.mem_cons_self _ _))
    | cons y u =>
      show (rest.map (combList c z)).foldl c (u.foldl c y)
          = combList c z ((y :: u) ++ rest.flatten)
      have h2 : combList c z ((y :: u) ++ rest.flatten)
          = (rest.flatten).foldl c (u.foldl c y) := by
        show (u ++ rest.flatten).foldl c y = _
        rw [List.foldl_append]
      rw [h2]
      exact foldl_chunks hassoc rest (u.foldl c y)
        (fun l hl => hne l (List.mem_cons_of_mem _ hl))

/-- The value delivered by the block-parallel reduction is the plain fold
of the (associative) combine functor over the value list, independently of
the group size `L` — spec section 4.4's determinism statement. -/
lemma blockReduce_eq_combList {α : Type} {c : α → α → α} {z : α} {L : ℕ}
    (hassoc : ∀ a b d, c (c a b) d = c a (c b d)) (hL : 1 ≤ L)
    (xs : List α) : blockReduce c z L xs = combList c z xs := by
  unfold blockReduce
  generalize xs.length = fuel
  induction fuel generalizing xs with
  | zero =>
    cases xs with
    | nil => rfl
    | cons a t => cases t with
      | nil => rfl
      | cons b u => rfl
  | succ n ih =>
    cases xs with
    | nil => rfl
    | cons a t => cases t with
      | nil => rfl
      | cons b u =>
        show reduceRounds c z L n
            ((chunkGo L (a :: b :: u).length (a :: b :: u)).map (combList c z)) = _
        rw [ih]
        rw [combList_chunks hassoc _ (chunkGo_ne_nil hL _ _)]
        rw [chunkGo_join]

lemma combList_add (xs : List ℚ) : combList (· + ·) 0 xs = xs.sum := by
  cases xs with
  | nil => rfl
  | cons x t =>
    show t.foldl (· + ·) x = (x :: t).sum
    induction t generalizing x with
    | nil => simp
    | cons y t' ih =>
      simp only [List.foldl_cons, List.sum_cons] at *
      rw [ih (x + y)]
      ring

/-- Additive block reduction yields the sum of the value list. -/
lemma blockReduce_add (L : ℕ) (hL : 1 ≤ L) (xs : List ℚ) :
    blockReduce (· + ·) 0 L xs = xs.sum := by
  rw [blockReduce_eq_combList (fun a b d => add_assoc a b d) hL, combList_add]

/-! ## Level-1 routines (translated from `blas1_interface_sycl.hpp`)

Each routine receives, for every pointer argument of the C++ signature,
the underlying buffer (`ex.get_buffer`) and its offset (`ex.get_offset`)
as separate parameters, exactly the data the C++ façade extracts. -/

/-- `_copy(ex, N, vx, incx, vy, incy)`: builds views `vx`, `vy` and executes
`Assign(vy, vx)`; returns the new contents of the `y` buffer (the `x`
buffer is only read). -/
def _copy (N : ℕ) (x : ℤ → ℚ) (offx incx : ℤ) (y : ℤ → ℚ) (offy incy : ℤ) :
    ℤ → ℚ :=
  let vx : vector_view := ⟨offx, incx, N⟩
  let vy : vector_view := ⟨offy, incy, N⟩
  assignExec vy (fun i => x (vx.pos i)) y

/-- `_swap(ex, N, vx, incx, vy, incy)`: executes
`DobleAssign(vy, vx, vx, vy)` — destination A is `vy` (the `y` buffer),
destination B is `vx` (the `x` buffer), sources are the pre-state views.
Returns `(new x buffer, new y buffer)`. -/
def _swap (N : ℕ) (x : ℤ → ℚ) (offx incx : ℤ) (y : ℤ → ℚ) (offy incy : ℤ) :
    (ℤ → ℚ) × (ℤ → ℚ) :=
  let vx : vector_view := ⟨offx, incx, N⟩
  let vy : vector_view := ⟨offy, incy, N⟩
  let r := dualAssignExec vy vx (fun i => x (vx.pos i)) (fun i => y (vy.pos i)) y x
  (r.2, r.1)

/-- `_rot(ex, N, vx, incx, vy, incy, cos, sin)`: builds the four `ScalarOp`
products, the two `BinaryOp` additions, and executes
`DobleAssign(vx, vy, addOp12, addOp34)`.  Returns
`(new x buffer, new y buffer)`. -/
def _rot (N : ℕ) (x : ℤ → ℚ) (offx incx : ℤ) (y : ℤ → ℚ) (offy incy : ℤ)
    (c s : ℚ) : (ℤ → ℚ) × (ℤ → ℚ) :=
  let vx : vector_view := ⟨offx, incx, N⟩
  let vy : vector_view := ⟨offy, incy, N⟩
  let scalOp1 := fun i => c * x (vx.pos i)
  let scalOp2 := fun i => s * y (vy.pos i)
  let scalOp3 := fun i => (-s) * x (vx.pos i)
  let scalOp4 := fun i => c * y (vy.pos i)
  let addOp12 := fun i => scalOp1 i + scalOp2 i
  let addOp34 := fun i => scalOp3 i + scalOp4 i
  dualAssignExec vx vy addOp12 addOp34 x y

/-- Modelled from the spec: `make_addAssignReduction(rs, tree, localSize,
globalSize)` runs the additive block reduction over the `n` values of the
operand tree and stores the result in the single element of the view
`rs` (spec section 4.4); the reduction body is in `blas1_trees.hpp`, not
among the sources.  `globalSize` only partitions the work and does not
influence the value. -/
def make_addAssignReduction (rs : vector_view) (tree : ℕ → ℚ) (n : ℕ)
    (localSize globalSize : ℕ) (buf : ℤ → ℚ) : ℤ → ℚ :=
  upd buf (rs.pos 0) (blockReduce (· + ·) 0 localSize ((List.range n).map tree))

/-- `_dot(ex, N, vx, incx, vy, incy, rs)` (event overload): elementwise
product tree fed into the additive reduction; the result view is built at
`ex.get_offset(_rs)` with stride 1 and length 1. -/
def _dot (N : ℕ) (x : ℤ → ℚ) (offx incx : ℤ) (y : ℤ → ℚ) (offy incy : ℤ)
    (r : ℤ → ℚ) (offr : ℤ) : ℤ → ℚ :=
  let vx : vector_view := ⟨offx, incx, N⟩
  let vy : vector_view := ⟨offy, incy, N⟩
  let rs : vector_view := ⟨offr, 1, 1⟩
  let prdOp := fun i => x (vx.pos i) * y (vy.pos i)
  make_addAssignReduction rs prdOp N 256 (256 * 512) r

/-- `_nrm2(ex, N, vx, incx, rs)` (event overload): squares via the unary
product tree, additive reduction, then a one-element `Assign` replacing the
sum by its square root.  The result view is constructed with offset `0`
(the literal in the source), not `ex.get_offset(_rs)`.  `sqrtFn` stands for
the scalar square-root functor `sqtOp1_struct`. -/
def _nrm2 (sqrtFn : ℚ → ℚ) (N : ℕ) (x : ℤ → ℚ) (offx incx : ℤ)
    (r : ℤ → ℚ) : ℤ → ℚ :=
  let vx : vector_view := ⟨offx, incx, N⟩
  let rs : vector_view := ⟨0, 1, 1⟩
  let prdOp := fun i => x (vx.pos i) * x (vx.pos i)
  let afterSum := make_addAssignReduction rs prdOp N 256 (256 * 512) r
  let sqrtOp := fun i => sqrtFn (afterSum (rs.pos i))
  assignExec rs sqrtOp afterSum

/-- Modelled from the spec: `make_addAbsAssignReduction(rs, vx, localSize,
globalSize)` — additive block reduction over the absolute values of the
view's elements, result stored in the one-element view `rs`. -/
def make_addAbsAssignReduction (rs : vector_view) (v : vector_view)
    (x : ℤ → ℚ) (localSize globalSize : ℕ) (buf : ℤ → ℚ) : ℤ → ℚ :=
  upd buf (rs.pos 0)
    (blockReduce (· + ·) 0 localSize ((List.range v.size).map fun i => |x (v.pos i)|))

/-- `_asum(ex, N, vx, incx, rs)` (event overload): sum of absolute values;
the result view is built at `ex.get_offset(_rs)`. -/
def _asum (N : ℕ) (x : ℤ → ℚ) (offx incx : ℤ) (r : ℤ → ℚ) (offr : ℤ) :
    ℤ → ℚ :=
  let vx : vector_view := ⟨offx, incx, N⟩
  let rs : vector_view := ⟨offr, 1, 1⟩
  make_addAbsAssignReduction rs vx x 256 (256 * 512) r

/-! ## Index-value reductions (iamax / iamin) -/

/-- `(index, value)` pair produced by the `Tuple` tree node. -/
structure IndexValueTuple where
  ind : ℕ
  val : ℚ
deriving DecidableEq

/-- Modelled from the spec: arg-max combine functor — ordering uses `>`,
so on ties the earlier (smaller-index) operand is kept. -/
def maxIndComb (a b : IndexValueTuple) : IndexValueTuple :=
  if b.val > a.val then b else a

/-- Modelled from the spec: arg-min combine functor — ordering uses `<`,
so on ties the earlier (smaller-index) operand is kept. -/
def minIndComb (a b : IndexValueTuple) : IndexValueTuple :=
  if b.val < a.val then b else a

/-- Modelled from the spec: `make_maxIndAssignReduction` — block reduction
with the arg-max combine functor, result tuple stored in `rs`. -/
def make_maxIndAssignReduction (rs : vector_view) (tupOp : ℕ → IndexValueTuple)
    (n localSize globalSize : ℕ) (buf : ℤ → IndexValueTuple) :
    ℤ → IndexValueTuple :=
  upd buf (rs.pos 0)
    (blockReduce maxIndComb ⟨0, 0⟩ localSize ((List.range n).map tupOp))

/-- Modelled from the spec: `make_minIndAssignReduction` — block reduction
with the arg-min combine functor, result tuple stored in `rs`. -/
def make_minIndAssignReduction (rs : vector_view) (tupOp : ℕ → IndexValueTuple)
    (n localSize globalSize : ℕ) (buf : ℤ → IndexValueTuple) :
    ℤ → IndexValueTuple :=
  upd buf (rs.pos 0)
    (blockReduce minIndComb ⟨0, 0⟩ localSize ((List.range n).map tupOp))

/-- `_iamax(ex, N, vx, incx, rs)` (event overload): wraps the input view in
a `TupleOp` pairing each value with its index and reduces with the arg-max
functor; the result view is built at `ex.get_offset(_rs)`. -/
def _iamax (N : ℕ) (x : ℤ → ℚ) (offx incx : ℤ) (rT : ℤ → IndexValueTuple)
    (offr : ℤ) : ℤ → IndexValueTuple :=
  let vx : vector_view := ⟨offx, incx, N⟩
  let rs : vector_view := ⟨offr, 1, 1⟩
  let tupOp := fun i => IndexValueTuple.mk i (x (vx.pos i))
  make_maxIndAssignReduction rs tupOp N 256 (256 * 512) rT

/-- `_iamin(ex, N, vx, incx, rs)` (event overload): like `_iamax` with the
arg-min functor. -/
def _iamin (N : ℕ) (x : ℤ → ℚ) (offx incx : ℤ) (rT : ℤ → IndexValueTuple)
    (offr : ℤ) : ℤ → IndexValueTuple :=
  let vx : vector_view := ⟨offx, incx, N⟩
  let rs : vector_view := ⟨offr, 1, 1⟩
  let tupOp := fun i => IndexValueTuple.mk i (x (vx.pos i))
  make_minIndAssignReduction rs tupOp N 256 (256 * 512) rT

/-! ## `_rotmg` (experimental modified-Givens parameter routine)

Translated from the `BLAS_EXPERIMENTAL` block of
`blas1_interface_sycl.hpp` up to the end of the flag-selection branch nest
(the scale-check loops and the `_param` writes follow it in the source and
are outside the scope of the property under verification).  The C++ locals
`flag, h11, h12, h21, h22` are declared uninitialized; the parameters
`uflag, uh11, uh12, uh21, uh22` stand for their indeterminate initial
values on the paths that do not assign them. -/

/-- State of `_d1, _d2, _x1, _y1` and the locals at the exit of the
branch nest of `_rotmg`; `early` records the `p2 == 0` path that returns
from the routine at once. -/
structure RotmgBranchOut where
  d1 : ℚ
  d2 : ℚ
  x1 : ℚ
  y1 : ℚ
  flag : ℚ
  h11 : ℚ
  h12 : ℚ
  h21 : ℚ
  h22 : ℚ
  early : Bool
deriving DecidableEq

/-- The branch nest of `_rotmg` (source lines 525-584), with each C++
assignment rendered as a shadowing `let` in source order. -/
def _rotmgBranch (uflag uh11 uh12 uh21 uh22 : ℚ) (d1 d2 x1 y1 : ℚ) :
    RotmgBranchOut :=
  if d1 < 1 then
    ⟨0, 0, 0, y1, -1, 0, 0, 0, 0, false⟩
  else
    let p2 := d2 * y1
    if p2 = 0 then
      ⟨d1, d2, x1, y1, -2, uh11, uh12, uh21, uh22, true⟩
    else
      let p1 := d1 * x1
      let q2 := p2 * y1
      let q1 := p1 * x1
      if |q1| > |q2| then
        let h21 := -y1 / x1
        let h12 := p2 / p1
        let su := 1 - h12 * h21
        if su > 0 then
          ⟨d1 / su, d2 / su, x1 / su, y1, 0, uh11, h12, h21, uh22, false⟩
        else
          ⟨d1, d2, x1, y1, uflag, uh11, h12, h21, uh22, false⟩
      else
        if q2 < 0 then
          ⟨0, 0, 0, y1, -1, 0, 0, 0, 0, false⟩
        else
          let flag := (1 : ℚ)
          let h11 := p1 / p2
          let h22 := x1 / y1
          let su := 1 + h11 * h22
          let temp := d2 / su
          let d2 := d1 / su
          let d1 := temp
          let x1 := y1 * su
          let h12 := (0 : ℚ)
          let h21 := (0 : ℚ)
          let d1 := (0 : ℚ)
          let d2 := (0 : ℚ)
          let x1 := (0 : ℚ)
          ⟨d1, d2, x1, y1, flag, h11, h12, h21, h22, false⟩

/-! ## Level-3 GEMM (translated from `blas3_interface_sycl.hpp`) -/

/-- Column-major matrix window (`matrix_view`): element `(r, c)` lives at
buffer position `offset + r + c * ld` (spec section 3). -/
structure matrix_view where
  rows : ℕ
  cols : ℕ
  ld : ℤ
  offset : ℤ

/-- Buffer position of element `(r, c)` of the view. -/
def matrix_view.posM (m : matrix_view) (r c : ℕ) : ℤ :=
  m.offset + r + c * m.ld

/-- GEMM tile descriptor `Tile<ItemRows, ItemCols, WgRows, WgCols>`. -/
structure Tile where
  itemRows : ℕ
  itemCols : ℕ
  wgRows : ℕ
  wgCols : ℕ

/-- Device classes distinguished by the dispatch table of `_gemm`. -/
inductive device_type where
  | INTELGPU : device_type
  | OTHER : device_type

/-- `op(A)[r, k]`: the `A` operand element used by the kernel, transposed
access when the transpose flag is set. -/
def gemmOpA (ta : Bool) (va : matrix_view) (Abuf : ℤ → ℚ) (r k : ℕ) : ℚ :=
  if ta then Abuf (va.offset + k + r * va.ld) else Abuf (va.offset + r + k * va.ld)

/-- `op(B)[k, c]`: the `B` operand element used by the kernel. -/
def gemmOpB (tb : Bool) (vb : matrix_view) (Bbuf : ℤ → ℚ) (k c : ℕ) : ℚ :=
  if tb then Bbuf (vb.offset + c + k * vb.ld) else Bbuf (vb.offset + k + c * vb.ld)

/-- Output domain of the kernel: all `(r, c)` with `r < M`, `c < N`. -/
def gemmDom (M N : ℕ) : List (ℕ × ℕ) :=
  (List.range M).flatMap fun r => (List.range N).map fun c => (r, c)

/-- Modelled from the spec: the value semantics shared by every GEMM kernel
specialization — `C := alpha * op(A) * op(B) + beta * C` over the `C`
view's domain, other buffer positions untouched (spec sections 4.5, 8).
The kernel bodies live in `blas3_trees.hpp`, not among the sources. -/
def gemmKernelWrite (ta tb : Bool) (alpha beta : ℚ) (va vb vc : matrix_view)
    (Abuf Bbuf Cbuf : ℤ → ℚ) : ℤ → ℚ :=
  maskedWrite (gemmDom vc.rows vc.cols) (fun rc => vc.posM rc.1 rc.2)
    (fun rc =>
      alpha * ((List.range va.cols).map fun k =>
          gemmOpA ta va Abuf rc.1 k * gemmOpB tb vb Bbuf k rc.2).sum
        + beta * Cbuf (vc.posM rc.1 rc.2))
    Cbuf

/-- Modelled from the spec: `make_gemm` — the shared-local-memory tiled
kernel family; the tile descriptor arguments drive only the work shape,
never the value (spec section 4.5). -/
def make_gemm (DoubleBuffer ConflictA ConflictB : Bool) (ClSize : ℕ)
    (tile : Tile) (ta tb : Bool) (va vb vc : matrix_view)
    (Abuf Bbuf Cbuf : ℤ → ℚ) (alpha beta : ℚ) : ℤ → ℚ :=
  gemmKernelWrite ta tb alpha beta va vb vc Abuf Bbuf Cbuf

/-- Modelled from the spec: `make_gemm_no_local_mem` — the register-tiled
kernel family used when the device exposes no fast local memory. -/
def make_gemm_no_local_mem (WgSize : ℕ) (ta tb : Bool) (va vb vc : matrix_view)
    (Abuf Bbuf Cbuf : ℤ → ℚ) (alpha beta : ℚ) : ℤ → ℚ :=
  gemmKernelWrite ta tb alpha beta va vb vc Abuf Bbuf Cbuf

/-- `_select_gemm`: builds the three matrix views and expands the
`ENABLE_GEMM_TRANSPOSE` macro for the four transpose combinations; each
match branches on `ex.has_local_memory()`.  The trailing `return event`
of the C++ (dead, as all four combinations are enumerated) is the final
`else` returning the unmodified `C` buffer. -/
def _select_gemm (WgSize : ℕ) (DoubleBuffer ConflictA ConflictB : Bool)
    (ClSize : ℕ) (tile : Tile) (hasLocalMem : Bool) (TransA TransB : Bool)
    (M N K : ℕ) (alpha : ℚ) (Abuf : ℤ → ℚ) (offA lda : ℤ)
    (Bbuf : ℤ → ℚ) (offB ldb : ℤ) (beta : ℚ) (Cbuf : ℤ → ℚ)
    (offC ldc : ℤ) : ℤ → ℚ :=
  let buffer_a : matrix_view := ⟨M, K, lda, offA⟩
  let buffer_b : matrix_view := ⟨K, N, ldb, offB⟩
  let buffer_c : matrix_view := ⟨M, N, ldc, offC⟩
  if TransA = false ∧ TransB = false then
    if hasLocalMem then
      make_gemm DoubleBuffer ConflictA ConflictB ClSize tile false false
        buffer_a buffer_b buffer_c Abuf Bbuf Cbuf alpha beta
    else
      make_gemm_no_local_mem WgSize false false
        buffer_a buffer_b buffer_c Abuf Bbuf Cbuf alpha beta
  else if TransA = true ∧ TransB = false then
    if hasLocalMem then
      make_gemm DoubleBuffer ConflictA ConflictB ClSize tile true false
        buffer_a buffer_b buffer_c Abuf Bbuf Cbuf alpha beta
    else
      make_gemm_no_local_mem WgSize true false
        buffer_a buffer_b buffer_c Abuf Bbuf Cbuf alpha beta
  else if TransA = false ∧ TransB = true then
    if hasLocalMem then
      make_gemm DoubleBuffer ConflictA ConflictB ClSize tile false true
        buffer_a buffer_b buffer_c Abuf Bbuf Cbuf alpha beta
    else
      make_gemm_no_local_mem WgSize false true
        buffer_a buffer_b buffer_c Abuf Bbuf Cbuf alpha beta
  else if TransA = true ∧ TransB = true then
    if hasLocalMem then
      make_gemm DoubleBuffer ConflictA ConflictB ClSize tile true true
        buffer_a buffer_b buffer_c Abuf Bbuf Cbuf alpha beta
    else
      make_gemm_no_local_mem WgSize true true
        buffer_a buffer_b buffer_c Abuf Bbuf Cbuf alpha beta
  else
    Cbuf

/-- ASCII `tolower`, the behaviour of the C library call on the `"C"`
locale for character arguments. -/
def tolowerModel (c : Char) : Char :=
  if 'A' ≤ c ∧ c ≤ 'Z' then Char.ofNat (c.toNat + 32) else c

/-- `_gemm`: normalizes the transpose characters with `tolower`, rejects
characters outside `{n, t, c}` with an invalid-argument failure before any
kernel submission, reduces them to booleans via `!= 'n'` (so `c` behaves
exactly like `t`), and dispatches through the `BIND_DATA_SIZE` /
`BIND_DEFAULT` tables keyed on device class and exact `(M, N, K)`. -/
def _gemm (dev : device_type) (hasLocalMem : Bool) (TransA TransB : Char)
    (M N K : ℕ) (alpha : ℚ) (Abuf : ℤ → ℚ) (offA lda : ℤ)
    (Bbuf : ℤ → ℚ) (offB ldb : ℤ) (beta : ℚ) (Cbuf : ℤ → ℚ)
    (offC ldc : ℤ) : Except String (ℤ → ℚ) :=
  let ta := tolowerModel TransA
  let tb := tolowerModel TransB
  if ta ≠ 'n' ∧ ta ≠ 't' ∧ ta ≠ 'c' then
    Except.error "invalid _TransA"
  else if tb ≠ 'n' ∧ tb ≠ 't' ∧ tb ≠ 'c' then
    Except.error "invalid _TransB"
  else
    let TrA : Bool := ta != 'n'
    let TrB : Bool := tb != 'n'
    match dev with
    | device_type.INTELGPU =>
        if M = 1024 ∧ N = 4096 ∧ K = 1024 then
          Except.ok (_select_gemm 128 false false false 64 ⟨4, 4, 16, 16⟩
            hasLocalMem TrA TrB M N K alpha Abuf offA lda Bbuf offB ldb beta
            Cbuf offC ldc)
        else if M = 10 ∧ N = 1024 ∧ K = 1024 then
          Except.ok (_select_gemm 128 false false false 64 ⟨2, 2, 8, 8⟩
            hasLocalMem TrA TrB M N K alpha Abuf offA lda Bbuf offB ldb beta
            Cbuf offC ldc)
        else
          Except.ok (_select_gemm 128 false false false 64 ⟨8, 8, 8, 8⟩
            hasLocalMem TrA TrB M N K alpha Abuf offA lda Bbuf offB ldb beta
            Cbuf offC ldc)
    | device_type.OTHER =>
        if M = 10 ∧ N = 1024 ∧ K = 1024 then
          Except.ok (_select_gemm 128 true false false 64 ⟨1, 1, 16, 16⟩
            hasLocalMem TrA TrB M N K alpha Abuf offA lda Bbuf offB ldb beta
            Cbuf offC ldc)
        else
          Except.ok (_select_gemm 128 false false false 64 ⟨8, 8, 16, 16⟩
            hasLocalMem TrA TrB M N K alpha Abuf offA lda Bbuf offB ldb beta
            Cbuf offC ldc)

/-! ## Evaluation lemmas for strided assignment -/

/-- Value read back at visited position `off + i * s` of a strided write
with nonzero stride. -/
lemma assign_strided_pos {α : Type} (N : ℕ) (off s : ℤ) (hs : s ≠ 0)
    (vl : ℕ → α) (buf : ℤ → α) (i : ℕ) (hi : i < N) :
    maskedWrite (List.range N) (vector_view.pos ⟨off, s, N⟩) vl buf
      (off + i * s) = vl i := by
  have hpos : (off + (i : ℤ) * s) = vector_view.pos ⟨off, s, N⟩ i := rfl
  rw [hpos]
  exact maskedWrite_pos (List.mem_range.mpr hi) (fun j _ h => vector_view.pos_inj hs h)

/-- Positions visited by no index keep their previous contents. -/
lemma assign_strided_nmem {α : Type} (N : ℕ) (off s : ℤ)
    (vl : ℕ → α) (buf : ℤ → α) {p : ℤ}
    (hp : ∀ i : ℕ, i < N → p ≠ off + i * s) :
    maskedWrite (List.range N) (vector_view.pos ⟨off, s, N⟩) vl buf p = buf p :=
  maskedWrite_nmem (fun i hi h => hp i (List.mem_range.mp hi) h.symm)

/-! ## Claim theorems -/

/-- C1: after `_swap(ex, N, x, s, y, s)` with stride `s > 0`, every visited
position `p = off + i·s` (`i < N`) holds in the `x` buffer the prior `y`
element at `p` and in the `y` buffer the prior `x` element at `p`, and
every position of either buffer outside the visited set is unchanged. -/
theorem swap_exchanges_visited_and_preserves_rest (N : ℕ) (off s : ℤ)
    (hs : 0 < s) (x y : ℤ → ℚ) :
    (∀ i : ℕ, i < N →
      (_swap N x off s y off s).1 (off + i * s) = y (off + i * s) ∧
      (_swap N x off s y off s).2 (off + i * s) = x (off + i * s)) ∧
    (∀ p : ℤ, (∀ i : ℕ, i < N → p ≠ off + i * s) →
      (_swap N x off s y off s).1 p = x p ∧
      (_swap N x off s y off s).2 p = y p) := by
  refine ⟨fun i hi => ⟨?_, ?_⟩, fun p hp => ⟨?_, ?_⟩⟩
  · exact assign_strided_pos N off s (ne_of_gt hs) _ _ i hi
  · exact assign_strided_pos N off s (ne_of_gt hs) _ _ i hi
  · exact assign_strided_nmem N off s _ _ hp
  · exact assign_strided_nmem N off s _ _ hp

/-- Concrete buffers used by the witness theorems. -/
def exX : ℤ → ℚ := fun p => (p : ℚ)

/-- Concrete buffers used by the witness theorems. -/
def exY : ℤ → ℚ := fun p => (p : ℚ) + 10

theorem swap_exchanges_witness :
    (0 : ℤ) < 1 ∧
    (_swap 4 exX 0 1 exY 0 1).1 (0 + ((2 : ℕ) : ℤ) * 1)
      = exY (0 + ((2 : ℕ) : ℤ) * 1) :=
  ⟨by decide,
   ((swap_exchanges_visited_and_preserves_rest 4 0 1 (by decide) exX exY).1
      2 (by decide)).1⟩

/-- C2: for every index `i < N`, `_rot` writes
`x'_i = cos·x_i + sin·y_i` and `y'_i = −sin·x_i + cos·y_i`, both computed
from the buffer contents as they existed before either destination was
written (the `DobleAssign` read-all-before-write-all contract), so the
result is correct although the destinations alias the source operands. -/
theorem rot_applies_rotation_reading_prior_values (N : ℕ) (x y : ℤ → ℚ)
    (offx incx offy incy : ℤ) (hx : incx ≠ 0) (hy : incy ≠ 0) (c s : ℚ)
    (i : ℕ) (hi : i < N) :
    (_rot N x offx incx y offy incy c s).1 (offx + i * incx)
      = c * x (offx + i * incx) + s * y (offy + i * incy) ∧
    (_rot N x offx incx y offy incy c s).2 (offy + i * incy)
      = (-s) * x (offx + i * incx) + c * y (offy + i * incy) :=
  ⟨assign_strided_pos N offx incx hx _ _ i hi,
   assign_strided_pos N offy incy hy _ _ i hi⟩

theorem rot_applies_rotation_witness :
    (1 : ℤ) ≠ 0 ∧
    (_rot 1 exX 0 1 exY 0 1 2 3).1 (0 + ((0 : ℕ) : ℤ) * 1)
      = 2 * exX (0 + ((0 : ℕ) : ℤ) * 1) + 3 * exY (0 + ((0 : ℕ) : ℤ) * 1) :=
  ⟨by decide,
   (rot_applies_rotation_reading_prior_values 1 exX exY 0 1 0 1 (by decide)
      (by decide) 2 3 0 (by decide)).1⟩

/-- C8: `_copy` is idempotent — executing it twice in sequence leaves the
`y` buffer exactly as executing it once (the `x` buffer is only read by
`Assign(vy, vx)`, hence trivially unchanged by both runs). -/
theorem copy_idempotent (N : ℕ) (x : ℤ → ℚ) (offx incx : ℤ) (y : ℤ → ℚ)
    (offy incy : ℤ) :
    _copy N x offx incx (_copy N x offx incx y offy incy) offy incy
      = _copy N x offx incx y offy incy :=
  maskedWrite_idem _ _ _ _

/-! ## Evaluation of the reduction-based routines -/

lemma upd_same {α : Type} (f : ℤ → α) (q : ℤ) (v : α) : upd f q v q = v := by
  simp [upd]

lemma upd_other {α : Type} (f : ℤ → α) (q : ℤ) (v : α) {p : ℤ} (h : p ≠ q) :
    upd f q v p = f p := by
  simp [upd, h]

/-- The one-element result view `⟨o, 1, 1⟩` addresses exactly `o`. -/
lemma pos_single (o : ℤ) : vector_view.pos ⟨o, 1, 1⟩ 0 = o := by
  simp [vector_view.pos]

/-- Reading the single element of a one-element view after an `Assign`
into it. -/
lemma assign_single_read (o : ℤ) (src : ℕ → ℚ) (buf : ℤ → ℚ) :
    assignExec ⟨o, 1, 1⟩ src buf o = src 0 := by
  have hp : vector_view.pos ⟨0, 1, 1⟩ 0 = 0 := pos_single 0
  calc assignExec ⟨o, 1, 1⟩ src buf o
      = assignExec ⟨o, 1, 1⟩ src buf (vector_view.pos ⟨o, 1, 1⟩ 0) := by
        rw [pos_single]
    _ = src 0 := maskedWrite_pos (List.mem_range.mpr Nat.zero_lt_one)
        (fun i hi _ => by
          have h2 : i < 1 := by simpa using List.mem_range.mp hi
          omega)

/-- Reading the result cell of an additive reduction. -/
lemma addReduction_read (o : ℤ) (tree : ℕ → ℚ) (n L G : ℕ) (hL : 1 ≤ L)
    (buf : ℤ → ℚ) :
    make_addAssignReduction ⟨o, 1, 1⟩ tree n L G buf o
      = ((List.range n).map tree).sum := by
  show upd buf (vector_view.pos ⟨o, 1, 1⟩ 0) _ o = _
  rw [pos_single, upd_same]
  exact blockReduce_add L hL _

/-- The additive reduction touches only its result cell. -/
lemma addReduction_untouched (o : ℤ) (tree : ℕ → ℚ) (n L G : ℕ)
    (buf : ℤ → ℚ) {p : ℤ} (hp : p ≠ o) :
    make_addAssignReduction ⟨o, 1, 1⟩ tree n L G buf p = buf p := by
  show upd buf (vector_view.pos ⟨o, 1, 1⟩ 0) _ p = _
  rw [pos_single]
  exact upd_other _ _ _ hp

/-- `_dot` stores the sum of elementwise products at the result handle's
offset. -/
lemma dot_val (N : ℕ) (x y : ℤ → ℚ) (offx incx offy incy : ℤ)
    (r : ℤ → ℚ) (offr : ℤ) :
    _dot N x offx incx y offy incy r offr offr
      = ((List.range N).map fun i : ℕ =>
          x (offx + (i : ℤ) * incx) * y (offy + (i : ℤ) * incy)).sum :=
  addReduction_read offr _ N 256 (256 * 512) (by norm_num) r

/-- `_asum` stores the sum of absolute values at the result handle's
offset. -/
lemma asum_val (N : ℕ) (x : ℤ → ℚ) (offx incx : ℤ) (r : ℤ → ℚ)
    (offr : ℤ) :
    _asum N x offx incx r offr offr
      = ((List.range N).map fun i : ℕ => |x (offx + (i : ℤ) * incx)|).sum :=
  addReduction_read offr _ N 256 (256 * 512) (by norm_num) r

/-- `_nrm2` stores `sqrtFn` of the sum of squares at buffer position `0`
(the offset hard-wired into its result view). -/
lemma nrm2_val (sqrtFn : ℚ → ℚ) (N : ℕ) (x : ℤ → ℚ) (offx incx : ℤ)
    (r : ℤ → ℚ) :
    _nrm2 sqrtFn N x offx incx r 0
      = sqrtFn (((List.range N).map fun i : ℕ =>
          x (offx + (i : ℤ) * incx) * x (offx + (i : ℤ) * incx)).sum) := by
  have hread : _nrm2 sqrtFn N x offx incx r 0
      = sqrtFn (make_addAssignReduction ⟨0, 1, 1⟩
          (fun i => x (vector_view.pos ⟨offx, incx, N⟩ i)
            * x (vector_view.pos ⟨offx, incx, N⟩ i)) N 256 (256 * 512) r
          (vector_view.pos ⟨0, 1, 1⟩ 0)) :=
    assign_single_read 0 _ _
  rw [hread, pos_single]
  have hsum := addReduction_read 0
      (fun i => x (vector_view.pos ⟨offx, incx, N⟩ i)
        * x (vector_view.pos ⟨offx, incx, N⟩ i)) N 256 (256 * 512)
      (by norm_num) r
  rw [hsum]
  exact rfl

/-- `_nrm2` leaves every nonzero buffer position untouched (both its
phases write only at position `0`). -/
lemma nrm2_untouched (sqrtFn : ℚ → ℚ) (N : ℕ) (x : ℤ → ℚ)
    (offx incx : ℤ) (r : ℤ → ℚ) {p : ℤ} (hp : p ≠ 0) :
    _nrm2 sqrtFn N x offx incx r p = r p := by
  have h1 : _nrm2 sqrtFn N x offx incx r p
      = make_addAssignReduction ⟨0, 1, 1⟩
          (fun i => x (vector_view.pos ⟨offx, incx, N⟩ i)
            * x (vector_view.pos ⟨offx, incx, N⟩ i)) N 256 (256 * 512) r p :=
    assign_strided_nmem 1 0 1 _ _ (by
      intro i hi
      have : i = 0 := by omega
      subst this
      simpa using hp)
  rw [h1]
  exact addReduction_untouched 0 _ N 256 (256 * 512) r hp

/-- C7: the value `_dot` delivers equals the sum over the visited indices
of `x_i * y_i`, computed as the elementwise product tree fed into the
additive block reduction. -/
theorem dot_computes_sum_of_products (N : ℕ) (x y : ℤ → ℚ)
    (offx incx offy incy : ℤ) (r : ℤ → ℚ) (offr : ℤ) :
    _dot N x offx incx y offy incy r offr offr
      = ((List.range N).map fun i : ℕ =>
          x (offx + (i : ℤ) * incx) * y (offy + (i : ℤ) * incy)).sum :=
  dot_val N x y offx incx offy incy r offr

/-- C5: `_nrm2` computes the norm in two phases — an additive block
reduction of the squares followed by a separate one-element `Assign`
applying the square root — so the final stored result is
`sqrtFn` of the sum of squares of the visited elements. -/
theorem nrm2_reduction_then_sqrt_finish (sqrtFn : ℚ → ℚ) (N : ℕ)
    (x : ℤ → ℚ) (offx incx : ℤ) (r : ℤ → ℚ) :
    _nrm2 sqrtFn N x offx incx r 0
      = sqrtFn (((List.range N).map fun i : ℕ =>
          x (offx + (i : ℤ) * incx) * x (offx + (i : ℤ) * incx)).sum) :=
  nrm2_val sqrtFn N x offx incx r

/-! ## Arg-max / arg-min reduction values -/

lemma maxIndComb_assoc (a b d : IndexValueTuple) :
    maxIndComb (maxIndComb a b) d = maxIndComb a (maxIndComb b d) := by
  unfold maxIndComb
  split_ifs <;> first | rfl | (exfalso; linarith)

lemma minIndComb_assoc (a b d : IndexValueTuple) :
    minIndComb (minIndComb a b) d = minIndComb a (minIndComb b d) := by
  unfold minIndComb
  split_ifs <;> first | rfl | (exfalso; linarith)

/-- Left fold of the arg-max combine functor over the indexed values of
`v`, in index order — the value semantics of the arg-max reduction. -/
def argmaxFold (v : ℕ → ℚ) (n : ℕ) : IndexValueTuple :=
  combList maxIndComb ⟨0, 0⟩ ((List.range n).map fun i => ⟨i, v i⟩)

/-- Left fold of the arg-min combine functor, in index order. -/
def argminFold (v : ℕ → ℚ) (n : ℕ) : IndexValueTuple :=
  combList minIndComb ⟨0, 0⟩ ((List.range n).map fun i => ⟨i, v i⟩)

lemma combList_append_single {α : Type} (c : α → α → α) (z : α)
    (l : List α) (b : α) (hl : l ≠ []) :
    combList c z (l ++ [b]) = c (combList c z l) b := by
  cases l with
  | nil => exact absurd rfl hl
  | cons x t =>
    show (t ++ [b]).foldl c x = c (t.foldl c x) b
    rw [List.foldl_append]
    rfl

lemma range_map_ne_nil {β : Type} (g : ℕ → β) {n : ℕ} (hn : 0 < n) :
    (List.range n).map g ≠ [] := by
  simp only [ne_eq, List.map_eq_nil_iff, List.range_eq_nil]
  omega

lemma argmaxFold_succ (v : ℕ → ℚ) {n : ℕ} (hn : 0 < n) :
    argmaxFold v (n + 1) = maxIndComb (argmaxFold v n) ⟨n, v n⟩ := by
  unfold argmaxFold
  rw [List.range_succ, List.map_append]
  exact combList_append_single _ _ _ _ (range_map_ne_nil _ hn)

lemma argminFold_succ (v : ℕ → ℚ) {n : ℕ} (hn : 0 < n) :
    argminFold v (n + 1) = minIndComb (argminFold v n) ⟨n, v n⟩ := by
  unfold argminFold
  rw [List.range_succ, List.map_append]
  exact combList_append_single _ _ _ _ (range_map_ne_nil _ hn)

/-- The arg-max fold returns the first index attaining the maximum: its
index is in range, its value is the value at its index, no visited value
exceeds it, and every strictly earlier index holds a strictly smaller
value. -/
lemma argmaxFold_spec (v : ℕ → ℚ) :
    ∀ n : ℕ, 0 < n →
      (argmaxFold v n).ind < n ∧
      v (argmaxFold v n).ind = (argmaxFold v n).val ∧
      (∀ j, j < n → v j ≤ (argmaxFold v n).val) ∧
      (∀ j, j < (argmaxFold v n).ind → v j < (argmaxFold v n).val) := by
  intro n
  induction n with
  | zero => intro h; exact absurd h (lt_irrefl 0)
  | succ m ih =>
    intro _
    by_cases hm : 0 < m
    · rw [argmaxFold_succ v hm]
      obtain ⟨hlt, heq, hub, hfirst⟩ := ih hm
      unfold maxIndComb
      by_cases hgt : v m > (argmaxFold v m).val
      · rw [if_pos (by exact hgt)]
        refine ⟨?_, rfl, ?_, ?_⟩
        · show m < m + 1
          omega
        · intro j hj
          rcases Nat.lt_succ_iff_lt_or_eq.mp hj with h | h
          · exact le_of_lt (lt_of_le_of_lt (hub j h) hgt)
          · subst h; exact le_refl _
        · intro j hj
          have hj2 : j < m := hj
          exact lt_of_le_of_lt (hub j hj2) hgt
      · rw [if_neg (by exact hgt)]
        refine ⟨by omega, heq, ?_, hfirst⟩
        intro j hj
        rcases Nat.lt_succ_iff_lt_or_eq.mp hj with h | h
        · exact hub j h
        · subst h; exact le_of_not_lt hgt
    · have hm0 : m = 0 := by omega
      subst hm0
      refine ⟨?_, rfl, ?_, ?_⟩
      · show 0 < 0 + 1
        omega
      · intro j hj
        have hj0 : j = 0 := by omega
        subst hj0
        exact le_refl _
      · intro j hj
        have hj0 : j < 0 := hj
        exact absurd hj0 (Nat.not_lt_zero j)

/-- The arg-min fold returns the first index attaining the minimum. -/
lemma argminFold_spec (v : ℕ → ℚ) :
    ∀ n : ℕ, 0 < n →
      (argminFold v n).ind < n ∧
      v (argminFold v n).ind = (argminFold v n).val ∧
      (∀ j, j < n → (argminFold v n).val ≤ v j) ∧
      (∀ j, j < (argminFold v n).ind → (argminFold v n).val < v j) := by
  intro n
  induction n with
  | zero => intro h; exact absurd h (lt_irrefl 0)
  | succ m ih =>
    intro _
    by_cases hm : 0 < m
    · rw [argminFold_succ v hm]
      obtain ⟨hlt, heq, hub, hfirst⟩ := ih hm
      unfold minIndComb
      by_cases hgt : v m < (argminFold v m).val
      · rw [if_pos (by exact hgt)]
        refine ⟨?_, rfl, ?_, ?_⟩
        · show m < m + 1
          omega
        · intro j hj
          rcases Nat.lt_succ_iff_lt_or_eq.mp hj with h | h
          · exact le_of_lt (lt_of_lt_of_le hgt (hub j h))
          · subst h; exact le_refl _
        · intro j hj
          have hj2 : j < m := hj
          exact lt_of_lt_of_le hgt (hub j hj2)
      · rw [if_neg (by exact hgt)]
        refine ⟨by omega, heq, ?_, hfirst⟩
        intro j hj
        rcases Nat.lt_succ_iff_lt_or_eq.mp hj with h | h
        · exact hub j h
        · subst h; exact le_of_not_lt hgt
    · have hm0 : m = 0 := by omega
      subst hm0
      refine ⟨?_, rfl, ?_, ?_⟩
      · show 0 < 0 + 1
        omega
      · intro j hj
        have hj0 : j = 0 := by omega
        subst hj0
        exact le_refl _
      · intro j hj
        have hj0 : j < 0 := hj
        exact absurd hj0 (Nat.not_lt_zero j)

/-- The tuple stored by `_iamax` at the result offset is the arg-max fold
over the visited values. -/
lemma iamax_read (N : ℕ) (x : ℤ → ℚ) (offx incx : ℤ)
    (rT : ℤ → IndexValueTuple) (offr : ℤ) :
    _iamax N x offx incx rT offr offr
      = argmaxFold (fun i => x (offx + (i : ℤ) * incx)) N := by
  show upd rT (vector_view.pos ⟨offr, 1, 1⟩ 0) _ offr = _
  rw [pos_single, upd_same]
  unfold argmaxFold
  rw [blockReduce_eq_combList maxIndComb_assoc (by norm_num : (1 : ℕ) ≤ 256)]
  rfl

/-- The tuple stored by `_iamin` at the result offset is the arg-min fold
over the visited values. -/
lemma iamin_read (N : ℕ) (x : ℤ → ℚ) (offx incx : ℤ)
    (rT : ℤ → IndexValueTuple) (offr : ℤ) :
    _iamin N x offx incx rT offr offr
      = argminFold (fun i => x (offx + (i : ℤ) * incx)) N := by
  show upd rT (vector_view.pos ⟨offr, 1, 1⟩ 0) _ offr = _
  rw [pos_single, upd_same]
  unfold argminFold
  rw [blockReduce_eq_combList minIndComb_assoc (by norm_num : (1 : ℕ) ≤ 256)]
  rfl

/-- C6: for a non-empty vector, the tuple `_iamax` stores describes the
first element attaining the maximum value, and the tuple `_iamin` stores
describes the first element attaining the minimum value: the stored index
is in range, the stored value is the element at that index, the value is
extreme among all visited elements, and every strictly earlier index holds
a strictly less extreme value (ties resolve to the smallest index). -/
theorem iamax_iamin_return_first_extreme_index (N : ℕ) (hN : 0 < N)
    (x : ℤ → ℚ) (offx incx : ℤ) (rT rU : ℤ → IndexValueTuple)
    (offr offu : ℤ) :
    ((_iamax N x offx incx rT offr offr).ind < N ∧
     x (offx + ((_iamax N x offx incx rT offr offr).ind : ℤ) * incx)
       = (_iamax N x offx incx rT offr offr).val ∧
     (∀ j : ℕ, j < N →
       x (offx + (j : ℤ) * incx) ≤ (_iamax N x offx incx rT offr offr).val) ∧
     (∀ j : ℕ, j < (_iamax N x offx incx rT offr offr).ind →
       x (offx + (j : ℤ) * incx) < (_iamax N x offx incx rT offr offr).val)) ∧
    ((_iamin N x offx incx rU offu offu).ind < N ∧
     x (offx + ((_iamin N x offx incx rU offu offu).ind : ℤ) * incx)
       = (_iamin N x offx incx rU offu offu).val ∧
     (∀ j : ℕ, j < N →
       (_iamin N x offx incx rU offu offu).val ≤ x (offx + (j : ℤ) * incx)) ∧
     (∀ j : ℕ, j < (_iamin N x offx incx rU offu offu).ind →
       (_iamin N x offx incx rU offu offu).val < x (offx + (j : ℤ) * incx))) := by
  rw [iamax_read N x offx incx rT offr, iamin_read N x offx incx rU offu]
  exact ⟨argmaxFold_spec _ N hN, argminFold_spec _ N hN⟩

/-- Concrete vector `[1, 5, 5, 2]` (at positions `0..3`) for the arg-max
witness. -/
def exV : ℤ → ℚ :=
  fun p => if p = 1 then 5 else if p = 2 then 5 else if p = 3 then 2 else 1

/-- Concrete tuple buffer for witnesses. -/
def exT : ℤ → IndexValueTuple := fun q => ⟨0, 0⟩

theorem iamax_iamin_witness :
    0 < 4 ∧ (_iamax 4 exV 0 1 exT 0 0).ind < 4 :=
  ⟨by decide,
   ((iamax_iamin_return_first_extreme_index 4 (by decide) exV 0 1 exT exT
      0 0).1).1⟩

/-- C10: the event-returning `_nrm2` builds its result view at offset `0`
instead of the handle's offset: with a result handle of nonzero offset the
handle's cell stays untouched and the square root lands at the start of
the underlying buffer — while `_dot`, `_asum`, `_iamax` and `_iamin` all
store their results at the handle's offset. -/
theorem nrm2_result_lands_at_zero_not_handle_offset (sqrtFn : ℚ → ℚ)
    (N : ℕ) (x y : ℤ → ℚ) (offx incx offy incy : ℤ) (r rd ra : ℤ → ℚ)
    (rT rU : ℤ → IndexValueTuple) (offr : ℤ) (h : offr ≠ 0) :
    _nrm2 sqrtFn N x offx incx r offr = r offr ∧
    _nrm2 sqrtFn N x offx incx r 0
      = sqrtFn (((List.range N).map fun i : ℕ =>
          x (offx + (i : ℤ) * incx) * x (offx + (i : ℤ) * incx)).sum) ∧
    _dot N x offx incx y offy incy rd offr offr
      = ((List.range N).map fun i : ℕ =>
          x (offx + (i : ℤ) * incx) * y (offy + (i : ℤ) * incy)).sum ∧
    _asum N x offx incx ra offr offr
      = ((List.range N).map fun i : ℕ => |x (offx + (i : ℤ) * incx)|).sum ∧
    _iamax N x offx incx rT offr offr
      = argmaxFold (fun i => x (offx + (i : ℤ) * incx)) N ∧
    _iamin N x offx incx rU offr offr
      = argminFold (fun i => x (offx + (i : ℤ) * incx)) N :=
  ⟨nrm2_untouched sqrtFn N x offx incx r h,
   nrm2_val sqrtFn N x offx incx r,
   dot_val N x y offx incx offy incy rd offr,
   asum_val N x offx incx ra offr,
   iamax_read N x offx incx rT offr,
   iamin_read N x offx incx rU offr⟩

theorem nrm2_result_offset_witness :
    (3 : ℤ) ≠ 0 ∧ _nrm2 id 2 exX 0 1 exY 3 = exY 3 :=
  ⟨by decide,
   (nrm2_result_lands_at_zero_not_handle_offset id 2 exX exX 0 1 0 1 exY exY
      exY exT exT 3 (by decide)).1⟩

/-- C9: in the branch of `_rotmg` taken when `|q1| ≤ |q2|` and `q2 ≥ 0`
(flag set to one), `_d1`, `_d2` and `_x1` are first assigned from the
computed scaling factor `su` and then unconditionally overwritten with
zero, so on exit from that branch `_d1 = _d2 = _x1 = 0` regardless of the
computed values, and the flag is one. -/
theorem rotmg_flag_one_branch_rezeroes (u1 u2 u3 u4 u5 d1 d2 x1 y1 : ℚ)
    (h1 : ¬ d1 < 1) (h2 : ¬ d2 * y1 = 0)
    (h3 : ¬ |d1 * x1 * x1| > |d2 * y1 * y1|) (h4 : ¬ d2 * y1 * y1 < 0) :
    (_rotmgBranch u1 u2 u3 u4 u5 d1 d2 x1 y1).d1 = 0 ∧
    (_rotmgBranch u1 u2 u3 u4 u5 d1 d2 x1 y1).d2 = 0 ∧
    (_rotmgBranch u1 u2 u3 u4 u5 d1 d2 x1 y1).x1 = 0 ∧
    (_rotmgBranch u1 u2 u3 u4 u5 d1 d2 x1 y1).flag = 1 := by
  have hb : _rotmgBranch u1 u2 u3 u4 u5 d1 d2 x1 y1
      = ⟨0, 0, 0, y1, 1, d1 * x1 / (d2 * y1), 0, 0, x1 / y1, false⟩ := by
    simp only [_rotmgBranch]
    rw [if_neg h1, if_neg h2, if_neg h3, if_neg h4]
  rw [hb]
  exact ⟨rfl, rfl, rfl, rfl⟩

theorem rotmg_flag_one_witness :
    ¬ ((1 : ℚ) < 1) ∧ (_rotmgBranch 0 0 0 0 0 1 1 1 1).d1 = 0 :=
  ⟨by norm_num,
   (rotmg_flag_one_branch_rezeroes 0 0 0 0 0 1 1 1 1 (by norm_num)
      (by norm_num) (by norm_num) (by norm_num)).1⟩

/-! ## GEMM evaluation -/

/-- Column-major positions are injective on `[0, M) × ℕ` when the leading
dimension is at least `M`. -/
lemma colmajor_inj {M : ℕ} {ld : ℤ} (hld : (M : ℤ) ≤ ld) {r r' c c' : ℕ}
    (hr : r < M) (hr' : r' < M)
    (h : (r' : ℤ) + (c' : ℤ) * ld = (r : ℤ) + (c : ℤ) * ld) :
    r' = r ∧ c' = c := by
  have hM0 : (0 : ℤ) < M := by exact_mod_cast Nat.pos_of_ne_zero (by omega)
  have hld0 : (0 : ℤ) < ld := lt_of_lt_of_le hM0 hld
  have hrM : (r : ℤ) < M := by exact_mod_cast hr
  have hrM' : (r' : ℤ) < M := by exact_mod_cast hr'
  have hr0 : (0 : ℤ) ≤ r := Int.ofNat_nonneg r
  have hr0' : (0 : ℤ) ≤ r' := Int.ofNat_nonneg r'
  by_cases hcc : (c' : ℤ) = c
  · constructor
    · have : (r' : ℤ) = r := by
        rw [hcc] at h
        linarith
      exact_mod_cast this
    · exact_mod_cast hcc
  · exfalso
    have h2 : ((c' : ℤ) - c) * ld = (r : ℤ) - r' := by ring_nf; linarith
    have h1le : 1 ≤ |(c' : ℤ) - c| :=
      Int.one_le_abs (sub_ne_zero.mpr hcc)
    have habs : ld ≤ |((c' : ℤ) - c) * ld| := by
      rw [abs_mul, abs_of_pos hld0]
      nlinarith
    rw [h2] at habs
    have hlt : |(r : ℤ) - r'| < ld := by
      rw [abs_sub_lt_iff]
      constructor <;> linarith
    linarith

/-- Membership of `(r, c)` in the kernel's output domain. -/
lemma mem_gemmDom {M N r c : ℕ} (hr : r < M) (hc : c < N) :
    (r, c) ∈ gemmDom M N := by
  unfold gemmDom
  exact List.mem_flatMap.mpr
    ⟨r, List.mem_range.mpr hr,
     List.mem_map.mpr ⟨c, List.mem_range.mpr hc, rfl⟩⟩

lemma gemmDom_bounds {M N : ℕ} {y : ℕ × ℕ} (hy : y ∈ gemmDom M N) :
    y.1 < M ∧ y.2 < N := by
  unfold gemmDom at hy
  obtain ⟨a, ha, hy2⟩ := List.mem_flatMap.mp hy
  obtain ⟨b, hb, hy3⟩ := List.mem_map.mp hy2
  subst hy3
  exact ⟨List.mem_range.mp ha, List.mem_range.mp hb⟩

/-- Value written by the (spec-modelled) GEMM kernel at output cell
`(r, c)`, for a `C` view whose leading dimension accommodates its rows. -/
lemma gemmKernelWrite_val (ta tb : Bool) (alpha beta : ℚ)
    (va vb : matrix_view) (M N : ℕ) (ld off : ℤ) (A B C : ℤ → ℚ)
    (hld : (M : ℤ) ≤ ld) (r c : ℕ) (hr : r < M) (hc : c < N) :
    gemmKernelWrite ta tb alpha beta va vb ⟨M, N, ld, off⟩ A B C
      (off + r + c * ld)
      = alpha * ((List.range va.cols).map fun k : ℕ =>
          gemmOpA ta va A r k * gemmOpB tb vb B k c).sum
        + beta * C (off + r + c * ld) := by
  have huniq : ∀ y ∈ gemmDom M N,
      (⟨M, N, ld, off⟩ : matrix_view).posM y.1 y.2
        = (⟨M, N, ld, off⟩ : matrix_view).posM r c → y = (r, c) := by
    intro y hy hpos
    obtain ⟨hy1, hy2⟩ := gemmDom_bounds hy
    unfold matrix_view.posM at hpos
    have h : (y.1 : ℤ) + (y.2 : ℤ) * ld = (r : ℤ) + (c : ℤ) * ld := by
      linarith
    obtain ⟨e1, e2⟩ := colmajor_inj hld hr hy1 h
    exact Prod.ext e1 e2
  exact maskedWrite_pos (mem_gemmDom hr hc) huniq

/-- Every dispatch branch of `_select_gemm` — any tile descriptor, any
workgroup size, local-memory or register kernel — writes the same value
`alpha * (op(A)·op(B))[r,c] + beta * C[r,c]` at output cell `(r, c)`. -/
lemma select_gemm_val (W : ℕ) (db ca cb : Bool) (cls : ℕ) (tile : Tile)
    (hlm : Bool) (TrA TrB : Bool) (M N K : ℕ) (alpha : ℚ)
    (A : ℤ → ℚ) (offA lda : ℤ) (B : ℤ → ℚ) (offB ldb : ℤ) (beta : ℚ)
    (C : ℤ → ℚ) (offC ldc : ℤ) (hld : (M : ℤ) ≤ ldc)
    (r c : ℕ) (hr : r < M) (hc : c < N) :
    _select_gemm W db ca cb cls tile hlm TrA TrB M N K alpha A offA lda
        B offB ldb beta C offC ldc (offC + r + c * ldc)
      = alpha * ((List.range K).map fun k : ℕ =>
          gemmOpA TrA ⟨M, K, lda, offA⟩ A r k
            * gemmOpB TrB ⟨K, N, ldb, offB⟩ B k c).sum
        + beta * C (offC + r + c * ldc) := by
  have hval := gemmKernelWrite_val TrA TrB alpha beta ⟨M, K, lda, offA⟩
    ⟨K, N, ldb, offB⟩ M N ldc offC A B C hld r c hr hc
  cases TrA <;> cases TrB <;> cases hlm <;> exact hval

/-- C3: `_gemm` fails with an invalid-argument error, before any kernel is
dispatched, if and only if one of the transpose characters normalizes
outside `{n, t, c}`; accepted characters are handled case-insensitively,
and `c` (conjugate transpose) selects exactly the same kernel as `t`. -/
theorem gemm_transpose_validation_and_normalization (dev : device_type)
    (hlm : Bool) (ta tb : Char) (M N K : ℕ) (alpha : ℚ) (A : ℤ → ℚ)
    (offA lda : ℤ) (B : ℤ → ℚ) (offB ldb : ℤ) (beta : ℚ) (C : ℤ → ℚ)
    (offC ldc : ℤ) :
    ((∃ e, _gemm dev hlm ta tb M N K alpha A offA lda B offB ldb beta C
        offC ldc = Except.error e) ↔
      ((tolowerModel ta ≠ 'n' ∧ tolowerModel ta ≠ 't' ∧ tolowerModel ta ≠ 'c') ∨
       (tolowerModel tb ≠ 'n' ∧ tolowerModel tb ≠ 't' ∧ tolowerModel tb ≠ 'c'))) ∧
    (_gemm dev hlm 'c' tb M N K alpha A offA lda B offB ldb beta C offC ldc
      = _gemm dev hlm 't' tb M N K alpha A offA lda B offB ldb beta C offC ldc) ∧
    (_gemm dev hlm ta 'c' M N K alpha A offA lda B offB ldb beta C offC ldc
      = _gemm dev hlm ta 't' M N K alpha A offA lda B offB ldb beta C offC ldc) ∧
    (_gemm dev hlm 'N' tb M N K alpha A offA lda B offB ldb beta C offC ldc
      = _gemm dev hlm 'n' tb M N K alpha A offA lda B offB ldb beta C offC ldc) ∧
    (_gemm dev hlm 'T' tb M N K alpha A offA lda B offB ldb beta C offC ldc
      = _gemm dev hlm 't' tb M N K alpha A offA lda B offB ldb beta C offC ldc) ∧
    (_gemm dev hlm 'C' tb M N K alpha A offA lda B offB ldb beta C offC ldc
      = _gemm dev hlm 'c' tb M N K alpha A offA lda B offB ldb beta C offC ldc) ∧
    (_gemm dev hlm ta 'N' M N K alpha A offA lda B offB ldb beta C offC ldc
      = _gemm dev hlm ta 'n' M N K alpha A offA lda B offB ldb beta C offC ldc) ∧
    (_gemm dev hlm ta 'T' M N K alpha A offA lda B offB ldb beta C offC ldc
      = _gemm dev hlm ta 't' M N K alpha A offA lda B offB ldb beta C offC ldc) ∧
    (_gemm dev hlm ta 'C' M N K alpha A offA lda B offB ldb beta C offC ldc
      = _gemm dev hlm ta 'c' M N K alpha A offA lda B offB ldb beta C offC ldc) := by
  refine ⟨?_, ?_, ?_, ?_, ?_, ?_, ?_, ?_, ?_⟩
  · by_cases hA : tolowerModel ta ≠ 'n' ∧ tolowerModel ta ≠ 't' ∧ tolowerModel ta ≠ 'c'
    · refine ⟨fun _ => Or.inl hA, fun _ => ⟨"invalid _TransA", ?_⟩⟩
      simp only [_gemm]
      rw [if_pos hA]
    · by_cases hB : tolowerModel tb ≠ 'n' ∧ tolowerModel tb ≠ 't' ∧ tolowerModel tb ≠ 'c'
      · refine ⟨fun _ => Or.inr hB, fun _ => ⟨"invalid _TransB", ?_⟩⟩
        simp only [_gemm]
        rw [if_neg hA, if_pos hB]
      · constructor
        · rintro ⟨e, he⟩
          simp only [_gemm] at he
          rw [if_neg hA, if_neg hB] at he
          cases dev <;> split_ifs at he <;> exact Except.noConfusion he
        · rintro (h | h)
          · exact absurd h hA
          · exact absurd h hB
  · simp only [_gemm]
    rw [if_neg (show ¬(tolowerModel 'c' ≠ 'n' ∧ tolowerModel 'c' ≠ 't'
          ∧ tolowerModel 'c' ≠ 'c') from by decide),
        if_neg (show ¬(tolowerModel 't' ≠ 'n' ∧ tolowerModel 't' ≠ 't'
          ∧ tolowerModel 't' ≠ 'c') from by decide),
        show (tolowerModel 'c' != 'n') = (tolowerModel 't' != 'n') from by decide]
  · simp only [_gemm]
    rw [if_neg (show ¬(tolowerModel 'c' ≠ 'n' ∧ tolowerModel 'c' ≠ 't'
          ∧ tolowerModel 'c' ≠ 'c') from by decide),
        if_neg (show ¬(tolowerModel 't' ≠ 'n' ∧ tolowerModel 't' ≠ 't'
          ∧ tolowerModel 't' ≠ 'c') from by decide),
        show (tolowerModel 'c' != 'n') = (tolowerModel 't' != 'n') from by decide]
  · simp only [_gemm]
    rw [show tolowerModel 'N' = 'n' from by decide,
        show tolowerModel 'n' = 'n' from by decide]
  · simp only [_gemm]
    rw [show tolowerModel 'T' = 't' from by decide,
        show tolowerModel 't' = 't' from by decide]
  · simp only [_gemm]
    rw [show tolowerModel 'C' = 'c' from by decide,
        show tolowerModel 'c' = 'c' from by decide]
  · simp only [_gemm]
    rw [show tolowerModel 'N' = 'n' from by decide,
        show tolowerModel 'n' = 'n' from by decide]
  · simp only [_gemm]
    rw [show tolowerModel 'T' = 't' from by decide,
        show tolowerModel 't' = 't' from by decide]
  · simp only [_gemm]
    rw [show tolowerModel 'C' = 'c' from by decide,
        show tolowerModel 'c' = 'c' from by decide]

/-- C4: for every transpose combination in `{n, t}²`, every device class,
with or without local memory, and whichever tile descriptor the dispatch
tables select, `_gemm` succeeds and writes
`alpha * (op(A)·op(B))[r,c] + beta * C[r,c]` at every output cell `(r, c)`
— the dispatch choice never changes the numeric result. -/
theorem gemm_value_independent_of_dispatch (dev : device_type) (hlm : Bool)
    (ta tb : Char) (hta : ta = 'n' ∨ ta = 't') (htb : tb = 'n' ∨ tb = 't')
    (M N K : ℕ) (alpha : ℚ) (A : ℤ → ℚ) (offA lda : ℤ) (B : ℤ → ℚ)
    (offB ldb : ℤ) (beta : ℚ) (C : ℤ → ℚ) (offC ldc : ℤ)
    (hld : (M : ℤ) ≤ ldc) (r c : ℕ) (hr : r < M) (hc : c < N) :
    ∃ f, _gemm dev hlm ta tb M N K alpha A offA lda B offB ldb beta C
        offC ldc = Except.ok f ∧
      f (offC + r + c * ldc)
        = alpha * ((List.range K).map fun k : ℕ =>
            gemmOpA (ta == 't') ⟨M, K, lda, offA⟩ A r k
              * gemmOpB (tb == 't') ⟨K, N, ldb, offB⟩ B k c).sum
          + beta * C (offC + r + c * ldc) := by
  have hno : ¬(tolowerModel 'n' ≠ 'n' ∧ tolowerModel 'n' ≠ 't'
      ∧ tolowerModel 'n' ≠ 'c') := by decide
  have hto : ¬(tolowerModel 't' ≠ 'n' ∧ tolowerModel 't' ≠ 't'
      ∧ tolowerModel 't' ≠ 'c') := by decide
  rcases hta with h | h <;> subst h
  · rcases htb with h2 | h2 <;> subst h2
    · simp only [_gemm]
      rw [if_neg hno, if_neg hno]
      cases dev <;> split_ifs <;>
        exact ⟨_, rfl, select_gemm_val _ _ _ _ _ _ hlm _ _ M N K alpha
          A offA lda B offB ldb beta C offC ldc hld r c hr hc⟩
    · simp only [_gemm]
      rw [if_neg hno, if_neg hto]
      cases dev <;> split_ifs <;>
        exact ⟨_, rfl, select_gemm_val _ _ _ _ _ _ hlm _ _ M N K alpha
          A offA lda B offB ldb beta C offC ldc hld r c hr hc⟩
  · rcases htb with h2 | h2 <;> subst h2
    · simp only [_gemm]
      rw [if_neg hto, if_neg hno]
      cases dev <;> split_ifs <;>
        exact ⟨_, rfl, select_gemm_val _ _ _ _ _ _ hlm _ _ M N K alpha
          A offA lda B offB ldb beta C offC ldc hld r c hr hc⟩
    · simp only [_gemm]
      rw [if_neg hto, if_neg hto]
      cases dev <;> split_ifs <;>
        exact ⟨_, rfl, select_gemm_val _ _ _ _ _ _ hlm _ _ M N K alpha
          A offA lda B offB ldb beta C offC ldc hld r c hr hc⟩

theorem gemm_dispatch_witness :
    ((2 : ℕ) : ℤ) ≤ 2 ∧
    ∃ f, _gemm device_type.OTHER false 'n' 'n' 2 2 2 1 exX 0 2 exY 0 2 0 exY 0 2
        = Except.ok f ∧
      f (0 + ((1 : ℕ) : ℤ) + ((1 : ℕ) : ℤ) * 2)
        = 1 * ((List.range 2).map fun k : ℕ =>
            gemmOpA ('n' == 't') ⟨2, 2, 2, 0⟩ exX 1 k
              * gemmOpB ('n' == 't') ⟨2, 2, 2, 0⟩ exY k 1).sum
          + 0 * exY (0 + ((1 : ℕ) : ℤ) + ((1 : ℕ) : ℤ) * 2) :=
  ⟨by decide,
   gemm_value_independent_of_dispatch device_type.OTHER false 'n' 'n'
     (Or.inl rfl) (Or.inl rfl) 2 2 2 1 exX 0 2 exY 0 2 0 exY 0 2 (by decide)
     1 1 (by decide) (by decide)⟩

end blas
